import Mathlib

/-!
Verification of the Minihub source-control core: a shallow embedding of the
branch / file / commit model implemented by the Express routes and Mongoose
models of the repository, together with theorems settling the frozen claims
about it.  Mongo documents become Lean structures, object ids become natural
numbers handed out by a counter, and each route handler becomes a pure state
transformer on the collections it touches.
-/

namespace Minihub

/-- Action kinds recorded in a commit change entry (enum of commitSchema.changes.action). -/
inductive Action where
  | added
  | modified
  | deleted
  | renamed
deriving DecidableEq

/-- File type enum of fileSchema.type, stored in Mongo as the strings file and directory. -/
inductive FType where
  | file
  | directory
deriving DecidableEq

/-- String stored in the database for a file type; the tree sort compares these strings. -/
def FType.str : FType → String
  | FType.file => "file"
  | FType.directory => "directory"

/-- One entry of commitSchema.changes. -/
structure Change where
  action : Action
  filePath : String
  linesAdded : Nat
  linesDeleted : Nat
deriving DecidableEq

/-- Aggregate statistics block of a commit (commitSchema.stats). -/
structure CommitStats where
  filesChanged : Nat
  totalLinesAdded : Nat
  totalLinesDeleted : Nat
deriving DecidableEq

/-- A Commit document, restricted to the fields the claims mention.  The cid field
models the Mongo object id, and list position models creation time order. -/
structure CommitRec where
  cid : Nat
  hash : String
  branch : String
  changes : List Change
  stats : CommitStats
deriving DecidableEq

/-- A File document (fileSchema): the live snapshot of one file on one branch.
The fid field models the Mongo object id. -/
structure FileRec where
  fid : Nat
  branch : String
  path : String
  name : String
  content : String
  ftype : FType
  isDeleted : Bool
  lastCommit : Option Nat
deriving DecidableEq

/-- Splitting a character list on a separator character, with the JavaScript
split semantics: the empty input yields one empty segment, and a trailing
separator yields a trailing empty segment. -/
def splitChars (sep : Char) : List Char → List (List Char)
  | [] => [[]]
  | c :: cs =>
      let rest := splitChars sep cs
      if c = sep then [] :: rest
      else
        match rest with
        | [] => [[c]]
        | r :: rs => (c :: r) :: rs

/-- Number of newline separated segments of a string: the routes compute line
counts as the length of the array obtained by splitting the content on newline. -/
def countLines (s : String) : Nat := (splitChars (Char.ofNat 10) s.toList).length

/-- The calculateStats method of the commit schema, run by its pre-save hook:
filesChanged is the number of changes and the line totals are sums over them. -/
def calculateStats (changes : List Change) : CommitStats :=
  { filesChanged := changes.length
    totalLinesAdded := (changes.map (fun ch => ch.linesAdded)).sum
    totalLinesDeleted := (changes.map (fun ch => ch.linesDeleted)).sum }

/-- Saving a new Commit document: the pre-save hook fills in stats via calculateStats. -/
def mkCommit (cid : Nat) (hash branch : String) (changes : List Change) : CommitRec :=
  { cid := cid, hash := hash, branch := branch, changes := changes
    stats := calculateStats changes }

/-- The fullPath virtual of the file schema. -/
def fullPath (path name : String) : String :=
  if path = "/" then "/" ++ name else path ++ "/" ++ name

/-- Joining string segments with a separator, as the route does after popping
the file name from the split path. -/
def joinWith (sep : String) : List String → String
  | [] => ""
  | [s] => s
  | s :: rest => s ++ sep ++ joinWith sep rest

/-- Path parsing shared by the content routes: split on slash, pop the last
segment as the file name, and rejoin the remaining segments as the directory
path, defaulting to the root when nothing remains. -/
def parsePath (filePath : String) : String × String :=
  let parts := (splitChars '/' filePath.toList).map String.mk
  let fileName := parts.getLastD ""
  let rest := parts.dropLast
  let dirPath := if rest.length > 0 then "/" ++ joinWith "/" rest else "/"
  (dirPath, fileName)

/-- Commits of one branch of the project, as queried by the branch methods. -/
def commitsOn (commits : List CommitRec) (b : String) : List CommitRec :=
  commits.filter (fun c => c.branch == b)

/-- Hashes of a commit list, modelling the Set of hashes built by calculateDifference. -/
def hashesOf (cs : List CommitRec) : List String := cs.map (fun c => c.hash)

/-- The calculateDifference method of the branch schema: ahead is the number of
commits of this branch whose hash is not among the target branch hashes, and
behind is the number of target commits whose hash is not among this branch hashes. -/
def calculateDifference (commits : List CommitRec) (thisName targetName : String) :
    Nat × Nat :=
  let thisCommits := commitsOn commits thisName
  let targetCommits := commitsOn commits targetName
  let ahead := (thisCommits.filter (fun c => !(hashesOf targetCommits).contains c.hash)).length
  let behind := (targetCommits.filter (fun c => !(hashesOf thisCommits).contains c.hash)).length
  (ahead, behind)

/-- Anchored character wise matching: true when the first list is an initial
segment of the second, modelling the regex anchored at the start of the hash. -/
def charsMatch : List Char → List Char → Bool
  | [], _ => true
  | _ :: _, [] => false
  | a :: as, b :: bs => a == b && charsMatch as bs

/-- Lower cased character list of a string, modelling the i flag of the regex. -/
def lowerChars (s : String) : List Char := s.toList.map Char.toLower

/-- Whether a commit hash matches the given leading fragment case insensitively. -/
def hashMatches (frag : String) (c : CommitRec) : Bool :=
  charsMatch (lowerChars frag) (lowerChars c.hash)

/-- The commit lookup of GET by hash: findOne with a case insensitive anchored
regex, which yields the first matching commit of the project, or none. -/
def findCommit (commits : List CommitRec) (frag : String) : Option CommitRec :=
  commits.find? (hashMatches frag)

/-- Leading portion of a string, modelling the JavaScript substring from 0 to n. -/
def substringTo (s : String) (n : Nat) : String := String.mk (s.toList.take n)

/-- The generateHash method of the commit schema: the sha1 hex digest of project,
message, author, current time and a random number, truncated to its first 7
characters.  The digest computation is the external crypto library, so the 40
character hex digest is taken here as the input. -/
def generateHash (digestHex : String) : String := substringTo digestHex 7

/-- The shortHash virtual of the commit schema: the stored hash truncated to 7. -/
def shortHash (hash : String) : String := substringTo hash 7

/-- The unique index on the hash field: inserting a commit whose hash is already
present in the collection is rejected by the database. -/
def insertCommit (cs : List CommitRec) (c : CommitRec) : Option (List CommitRec) :=
  if cs.any (fun d => d.hash == c.hash) then none else some (cs ++ [c])

/-- All stored hashes pairwise distinct. -/
def hashesNodup (cs : List CommitRec) : Prop := (cs.map (fun c => c.hash)).Nodup

/-- Collaborator roles of the project schema. -/
inductive Role where
  | viewer
  | editor
  | admin
deriving DecidableEq

/-- The roleHierarchy table of hasPermission. -/
def roleLevel : Role → Nat
  | Role.viewer => 1
  | Role.editor => 2
  | Role.admin => 3

/-- One collaborators entry of the project schema; user ids are naturals. -/
structure Collaborator where
  user : Nat
  role : Role
deriving DecidableEq

/-- A Project document restricted to the fields hasPermission consults. -/
structure ProjectRec where
  owner : Nat
  collaborators : List Collaborator
deriving DecidableEq

/-- The hasPermission method of the project schema: the owner always passes,
otherwise the collaborator entry for the user is looked up and its role level
is compared against the required level, failing when there is no entry. -/
def hasPermission (p : ProjectRec) (userId : Nat) (required : Role) : Bool :=
  if p.owner = userId then true
  else
    match p.collaborators.find? (fun col => col.user == userId) with
    | none => false
    | some col => decide (roleLevel col.role ≥ roleLevel required)

/-- State of the file store and commit ledger of one project: the files and
commits collections, and a counter handing out fresh object ids. -/
structure St where
  files : List FileRec
  commits : List CommitRec
  nextId : Nat
deriving DecidableEq

/-- The find-or-create query used by the content routes: project, name, path and
branch must match and the file must not be soft deleted (no type filter). -/
def matchesLive (branch dirPath fileName : String) (f : FileRec) : Bool :=
  f.branch == branch && f.path == dirPath && f.name == fileName && !f.isDeleted

/-- The PUT content route: overwrite the live file in place when one matches
(action modified, linesAdded 0, linesDeleted the old line count) or create a
fresh one (action added, linesAdded the new line count, linesDeleted 0); in
both cases exactly one commit is appended and the file points at it. -/
def put (st : St) (branch filePath content hash : String) : St :=
  let dirPath := (parsePath filePath).1
  let fileName := (parsePath filePath).2
  match st.files.find? (matchesLive branch dirPath fileName) with
  | some f =>
      let cm := mkCommit st.nextId hash branch
        [⟨Action.modified, fullPath f.path f.name, 0, countLines f.content⟩]
      { files := st.files.map (fun g =>
          if g.fid = f.fid then { g with content := content, lastCommit := some cm.cid } else g)
        commits := st.commits ++ [cm]
        nextId := st.nextId + 1 }
  | none =>
      let nf : FileRec :=
        { fid := st.nextId, branch := branch, path := dirPath, name := fileName
          content := content, ftype := FType.file, isDeleted := false, lastCommit := none }
      let cm := mkCommit (st.nextId + 1) hash branch
        [⟨Action.added, fullPath dirPath fileName, countLines content, 0⟩]
      { files := st.files ++ [{ nf with lastCommit := some cm.cid }]
        commits := st.commits ++ [cm]
        nextId := st.nextId + 2 }

/-- The DELETE content route: soft delete the matching live file and append one
commit (action deleted, linesDeleted the line count of the deleted content);
none models the 404 when no live file matches.  The route does not update the
lastCommit pointer of the file. -/
def remove (st : St) (branch filePath hash : String) : Option St :=
  let dirPath := (parsePath filePath).1
  let fileName := (parsePath filePath).2
  match st.files.find? (matchesLive branch dirPath fileName) with
  | none => none
  | some f =>
      let cm := mkCommit st.nextId hash branch
        [⟨Action.deleted, fullPath f.path f.name, 0, countLines f.content⟩]
      some
        { files := st.files.map (fun g =>
            if g.fid = f.fid then { g with isDeleted := true } else g)
          commits := st.commits ++ [cm]
          nextId := st.nextId + 1 }

/-- The GET content route: the live file of type file at the parsed path, or
none for the 404. -/
def getContent (st : St) (branch filePath : String) : Option FileRec :=
  let dirPath := (parsePath filePath).1
  let fileName := (parsePath filePath).2
  st.files.find? (fun f =>
    matchesLive branch dirPath fileName f && f.ftype == FType.file)

/-- Immediate children returned by the tree query: exact path match on the
branch, excluding soft deleted records (no type filter). -/
def treeEntries (st : St) (branch dirPath : String) : List FileRec :=
  st.files.filter (fun f => f.branch == branch && f.path == dirPath && !f.isDeleted)

/-- Strict lexicographic comparison of character lists, the BSON string order
for the ASCII strings stored here. -/
def charListLT : List Char → List Char → Bool
  | [], [] => false
  | [], _ :: _ => true
  | _ :: _, [] => false
  | a :: as, b :: bs => a < b || (a == b && charListLT as bs)

/-- Strict lexicographic comparison of strings. -/
def strLT (a b : String) : Bool := charListLT a.toList b.toList

/-- The Mongo sort specification of the tree route: the stored type string
descending, then the name ascending.  Record a comes before record b exactly
when this holds. -/
def treeLE (a b : FileRec) : Bool :=
  strLT b.ftype.str a.ftype.str ||
    (a.ftype.str == b.ftype.str && (a.name == b.name || strLT a.name b.name))

/-- Insertion step of the sort on tree entries. -/
def insertLE (x : FileRec) : List FileRec → List FileRec
  | [] => [x]
  | y :: ys => if treeLE x y then x :: y :: ys else y :: insertLE x ys

/-- Insertion sort of tree entries under the Mongo sort specification. -/
def sortTree : List FileRec → List FileRec
  | [] => []
  | x :: xs => insertLE x (sortTree xs)

/-- The GET tree route: the immediate children of the directory on the branch,
sorted with the type string descending and then the name ascending. -/
def getTree (st : St) (branch dirPath : String) : List FileRec :=
  sortTree (treeEntries st branch dirPath)

/-- The copy loop of the branch creation route: each live file of the source
branch is recreated on the new branch with the same path, name, content and
type, a fresh object id, and all other fields left to their schema defaults,
so isDeleted is false and lastCommit is null. -/
def copyFiles (src : List FileRec) (newName : String) (startId : Nat) : List FileRec :=
  match src with
  | [] => []
  | f :: fs =>
      { f with fid := startId, branch := newName, isDeleted := false, lastCommit := none }
        :: copyFiles fs newName (startId + 1)

/-- File store effect of the branch creation route on success: every live file
of the source branch is copied onto the new branch.  The Branch collection
bookkeeping of the same route is modelled separately by the branch state. -/
def fork (st : St) (newName sourceName : String) : St :=
  let src := st.files.filter (fun f => f.branch == sourceName && !f.isDeleted)
  { st with
      files := st.files ++ copyFiles src newName st.nextId
      nextId := st.nextId + src.length }

/-- The project creation route: seed the main branch with the README file and
the initial commit, and point the file at that commit. -/
def initProject (readmeContent hash : String) : St :=
  let cm := mkCommit 1 hash "main"
    [⟨Action.added, "/README.md", countLines readmeContent, 0⟩]
  let rf : FileRec :=
    { fid := 0, branch := "main", path := "/", name := "README.md"
      content := readmeContent, ftype := FType.file, isDeleted := false
      lastCommit := some cm.cid }
  { files := [rf], commits := [cm], nextId := 2 }

/-- Commit history of one branch restricted to the commits touching a given
full path, in chronological (append) order; the history route returns the same
commits reverse chronologically. -/
def historyFor (st : St) (b fullp : String) : List CommitRec :=
  st.commits.filter (fun c => c.branch == b && c.changes.any (fun ch => ch.filePath == fullp))

/-- Files of one branch, used to state that writes to a branch leave every
other branch untouched. -/
def branchFiles (fs : List FileRec) (b : String) : List FileRec :=
  fs.filter (fun f => f.branch == b)

/-- Well formedness of a file store state: every stored object id is below the
counter and the stored object ids are pairwise distinct. -/
def WF (st : St) : Prop :=
  (∀ f ∈ st.files, f.fid < st.nextId) ∧ (st.files.map (fun f => f.fid)).Nodup

/-- A Branch document restricted to the fields the branch routes consult. -/
structure BranchRec where
  bid : Nat
  name : String
  isDefault : Bool
  isProtected : Bool
deriving DecidableEq

/-- State of the branches collection of one project, with the fresh id counter. -/
structure BSt where
  branches : List BranchRec
  nextBid : Nat
deriving DecidableEq

/-- Saving a branch document: the pre-save hook first clears isDefault on every
sibling when the saved document has isDefault true and that flag was modified
by this save, then the document itself is inserted or replaced by its id. -/
def saveBranch (bs : List BranchRec) (r : BranchRec) (defaultModified : Bool) :
    List BranchRec :=
  let bs1 :=
    if r.isDefault && defaultModified then
      bs.map (fun b => if b.bid = r.bid then b else { b with isDefault := false })
    else bs
  if bs1.any (fun b => b.bid == r.bid) then
    bs1.map (fun b => if b.bid = r.bid then r else b)
  else bs1 ++ [r]

/-- The createMain static of the branch schema, run once at project creation:
the main branch with isDefault and isProtected true; on this new document the
isDefault path counts as modified for the pre-save hook. -/
def createMainState : BSt :=
  { branches := saveBranch [] { bid := 0, name := "main", isDefault := true, isProtected := true } true
    nextBid := 1 }

/-- The branch creation route: rejected when the name is taken or the source
branch is missing, otherwise a new branch is saved with the default flags, so
isDefault false and isProtected false. -/
def createBranch (st : BSt) (name source : String) : BSt :=
  if st.branches.any (fun b => b.name == name) then st
  else if !(st.branches.any (fun b => b.name == source)) then st
  else
    { branches :=
        saveBranch st.branches
          { bid := st.nextBid, name := name, isDefault := false, isProtected := false } false
      nextBid := st.nextBid + 1 }

/-- The branch update route: load the branch by name, update its protection
flag and save it; the isDefault path is untouched, so the pre-save hook does
not fire. -/
def patchBranch (st : BSt) (name : String) (prot : Bool) : BSt :=
  match st.branches.find? (fun b => b.name == name) with
  | none => st
  | some b =>
      { st with branches := saveBranch st.branches { b with isProtected := prot } false }

/-- The branch deletion route: load the branch by name, refuse when it is the
default branch or protected, otherwise delete the document by its id. -/
def deleteBranch (st : BSt) (name : String) : BSt :=
  match st.branches.find? (fun b => b.name == name) with
  | none => st
  | some b =>
      if b.isDefault || b.isProtected then st
      else { st with branches := st.branches.filter (fun x => !(x.bid == b.bid)) }

/-- Branch operations available after project creation. -/
inductive BOp where
  | create (name source : String)
  | patch (name : String) (prot : Bool)
  | del (name : String)

/-- Apply one branch operation. -/
def applyBOp (st : BSt) : BOp → BSt
  | BOp.create name source => createBranch st name source
  | BOp.patch name prot => patchBranch st name prot
  | BOp.del name => deleteBranch st name

/-- Apply a sequence of branch operations. -/
def runBOps (st : BSt) : List BOp → BSt
  | [] => st
  | op :: ops => runBOps (applyBOp st op) ops

/-- Number of branches flagged as the default branch. -/
def countDefaults (bs : List BranchRec) : Nat :=
  (bs.filter (fun b => b.isDefault)).length

/-- Invariant carried through the branch operations: one default branch, all
document ids pairwise distinct and below the counter. -/
def BInv (st : BSt) : Prop :=
  countDefaults st.branches = 1 ∧ (st.branches.map (fun b => b.bid)).Nodup ∧
    ∀ b ∈ st.branches, b.bid < st.nextBid

/-- Scenario state of the divergence claim: a project whose main branch holds
the README with two lines, created with the initial commit. -/
def scenarioStart : St := initProject "hello\nworld" "aaaaaaa"

/-- Scenario state after forking the feature branch from main. -/
def scenarioForked : St := fork scenarioStart "feature" "main"

/-- Scenario state after writing the three line README on the feature branch. -/
def scenarioDone : St :=
  put scenarioForked "feature" "README.md" "hello\nworld\nmore" "bbbbbbb"

/-- A store holding one live file with a one line content, used to exercise the
modified action of the content route. -/
def c6Start : St :=
  { files := [{ fid := 0, branch := "main", path := "/", name := "notes.txt"
                content := "x", ftype := FType.file, isDeleted := false, lastCommit := none }]
    commits := [], nextId := 1 }

/-- A store holding one directory and one file at the root of main, used to
exercise the ordering of the tree route. -/
def c7Tree : St :=
  { files :=
      [{ fid := 0, branch := "main", path := "/", name := "src", content := ""
         ftype := FType.directory, isDeleted := false, lastCommit := none },
       { fid := 1, branch := "main", path := "/", name := "app.js", content := "x"
         ftype := FType.file, isDeleted := false, lastCommit := none }]
    commits := [], nextId := 2 }

/-- Two commits of one project sharing the leading hash fragment abc. -/
def c8Commits : List CommitRec :=
  [mkCommit 0 "abc1111" "main" [], mkCommit 1 "abc2222" "main" []]

/-- A concrete 40 character hex digest, standing for a sha1 output. -/
def digest40 : String := "0123456789abcdef0123456789abcdef01234567"

/-- An empty project state, used to instantiate the general theorems. -/
def emptySt : St := { files := [], commits := [], nextId := 0 }

/-- A concrete project record with one editor collaborator. -/
def demoProject : ProjectRec :=
  { owner := 1, collaborators := [{ user := 2, role := Role.editor }] }

/-- Helper: find? skips a leading block on which the predicate is false. -/
theorem find?_append_none {α : Type _} {p : α → Bool} {l₁ l₂ : List α}
    (h : ∀ x ∈ l₁, p x = false) : (l₁ ++ l₂).find? p = l₂.find? p := by
  induction l₁ with
  | nil => rfl
  | cons a l ih =>
      rw [List.cons_append, List.find?_cons_of_neg]
      · exact ih fun x hx => h x (List.mem_cons_of_mem a hx)
      · simp [h a (List.mem_cons_self a l)]

/-- C3: divergence computes ahead as the number of commits of the first branch
whose hash does not occur among the commits of the second, behind as the
symmetric count, and ahead of one direction equals behind of the other. -/
theorem c3_divergence (cs : List CommitRec) (a b : String) :
    (calculateDifference cs a b).1 =
      ((commitsOn cs a).filter
        (fun c => decide (∀ d ∈ commitsOn cs b, d.hash ≠ c.hash))).length ∧
    (calculateDifference cs a b).2 =
      ((commitsOn cs b).filter
        (fun c => decide (∀ d ∈ commitsOn cs a, d.hash ≠ c.hash))).length ∧
    (calculateDifference cs a b).1 = (calculateDifference cs b a).2 ∧
    (calculateDifference cs a b).2 = (calculateDifference cs b a).1 := by
  refine ⟨?_, ?_, rfl, rfl⟩ <;>
  · show (List.filter _ _).length = (List.filter _ _).length
    congr 1
    apply List.filter_congr
    intro c _
    have hc : ∀ L : List String, L.contains c.hash = decide (c.hash ∈ L) := by simp
    rw [hashesOf, hc, ← decide_not, decide_eq_decide]
    simp

/-- C4 counterexample: in the spec scenario the divergence of feature against
main is not ahead 1 behind 0, because the fork copies files but no commits, so
the initial commit of main is missing from the feature history. -/
theorem c4_counterexample :
    calculateDifference scenarioDone.commits "feature" "main" ≠ (1, 0) := by decide

/-- C4 amended: in the scenario the set difference divergence reports ahead 1
and behind 1 in both directions, while the content of the README on main is
still the original two line text. -/
theorem c4_scenario :
    calculateDifference scenarioDone.commits "feature" "main" = (1, 1) ∧
    calculateDifference scenarioDone.commits "main" "feature" = (1, 1) ∧
    (getContent scenarioDone "main" "README.md").map (fun f => f.content) =
      some "hello\nworld" := by decide

/-- C6 counterexample: overwriting a one line file with a two line content
records a modified change whose linesAdded is 0, not the line count 2 of the
new content. -/
theorem c6_counterexample :
    (put c6Start "main" "notes.txt" "a\nb" "1234567").commits =
      [mkCommit 1 "1234567" "main" [⟨Action.modified, "/notes.txt", 0, 1⟩]] ∧
    countLines "a\nb" = 2 ∧ (0 : Nat) ≠ 2 := by decide

/-- C7: on a tree holding the directory src and the file app.js the route
returns the file before the directory, because the sort orders the stored type
strings descending and the string file is lexicographically above directory;
this contradicts the documented directories first order. -/
theorem c7_tree_order :
    (getTree c7Tree "main" "/").map (fun f => f.name) = ["app.js", "src"] ∧
    (getTree c7Tree "main" "/").map (fun f => f.ftype) =
      [FType.file, FType.directory] := by decide

/-- C8 counterexample: with two commits matching the case insensitive fragment
ABC the lookup does not fail but returns the first matching commit. -/
theorem c8_counterexample :
    (c8Commits.filter (hashMatches "ABC")).length = 2 ∧
    findCommit c8Commits "ABC" = some (mkCommit 0 "abc1111" "main" []) := by decide

/-- C8 amended: the lookup fails exactly when no commit of the project matches
the fragment case insensitively; whenever it returns a commit, that commit is a
stored one matching the fragment (the first such, ambiguity is not rejected). -/
theorem c8_first_match (cs : List CommitRec) (frag : String) :
    (findCommit cs frag = none ↔ ∀ c ∈ cs, hashMatches frag c = false) ∧
    (∀ c, findCommit cs frag = some c → c ∈ cs ∧ hashMatches frag c = true) := by
  constructor
  · rw [findCommit, List.find?_eq_none]
    constructor
    · intro h c hc
      simpa using h c hc
    · intro h c hc
      simp [h c hc]
  · intro c hc
    exact ⟨List.mem_of_find?_eq_some hc, List.find?_some hc⟩

/-- C8 witness: the amended lookup applied to the concrete ambiguous commits. -/
theorem c8_first_match_witness :
    mkCommit 0 "abc1111" "main" [] ∈ c8Commits ∧
    hashMatches "ABC" (mkCommit 0 "abc1111" "main" []) = true :=
  (c8_first_match c8Commits "ABC").2 (mkCommit 0 "abc1111" "main" []) (by decide)

/-- C9 counterexample: on a concrete 40 character digest the stored hash is the
7 character truncation, which differs from the digest, so the full digest form
is not retained anywhere in the record. -/
theorem c9_counterexample :
    generateHash digest40 = "0123456" ∧
    (generateHash digest40).toList.length = 7 ∧
    digest40.toList.length = 40 ∧
    generateHash digest40 ≠ digest40 ∧
    shortHash (generateHash digest40) = generateHash digest40 := by decide

/-- C9 amended: the generated identifier is the 7 character truncation of the
hex digest (so it has fixed length 7 whenever the digest is at least that
long), the short display form coincides with the stored hash, and the unique
index keeps the stored hashes of the collection pairwise distinct. -/
theorem c9_hash_shape (d : String) (hd : 7 ≤ d.toList.length) :
    (generateHash d).toList.length = 7 ∧
    shortHash (generateHash d) = generateHash d ∧
    (∀ cs c cs', hashesNodup cs → insertCommit cs c = some cs' → hashesNodup cs') := by
  refine ⟨?_, ?_, ?_⟩
  · show (List.take 7 d.toList).length = 7
    rw [List.length_take]
    exact Nat.min_eq_left hd
  · show String.mk (List.take 7 (List.take 7 d.toList)) = String.mk (List.take 7 d.toList)
    rw [List.take_take]
    simp
  · intro cs c cs' hnd hins
    rw [insertCommit] at hins
    by_cases hany : cs.any (fun d => d.hash == c.hash)
    · simp [hany] at hins
    · simp only [hany, if_neg] at hins
      have hins' : cs ++ [c] = cs' := by simpa using hins
      subst hins'
      rw [hashesNodup, List.map_append, List.nodup_append]
      refine ⟨hnd, by simp, ?_⟩
      intro x hx hx'
      simp only [List.map_cons, List.map_nil, List.mem_singleton] at hx'
      subst hx'
      rcases List.mem_map.mp hx with ⟨d0, hd0, hdx⟩
      exact (List.any_eq_true.not.mp hany) ⟨d0, hd0, by simp [hdx]⟩

/-- C9 witness: the hash shape theorem applied to the concrete digest. -/
theorem c9_hash_shape_witness :
    (generateHash digest40).toList.length = 7 ∧
    shortHash (generateHash digest40) = generateHash digest40 :=
  ⟨(c9_hash_shape digest40 (by decide)).1, (c9_hash_shape digest40 (by decide)).2.1⟩

/-- C10: the project owner passes the permission gate for every required role
regardless of the collaborator list, while a user who is neither the owner nor
a collaborator fails it for every required role. -/
theorem c10_owner_permission (p : ProjectRec) (u : Nat) (r : Role) :
    hasPermission p p.owner r = true ∧
    (u ≠ p.owner → (∀ col ∈ p.collaborators, col.user ≠ u) →
      hasPermission p u r = false) := by
  constructor
  · simp [hasPermission]
  · intro hu hcol
    have hfind : p.collaborators.find? (fun col => col.user == u) = none := by
      rw [List.find?_eq_none]
      intro col hc
      simpa using hcol col hc
    have howner : ¬p.owner = u := fun h => hu h.symm
    simp [hasPermission, howner, hfind]

/-- C10 witness: the permission theorem applied to the concrete project. -/
theorem c10_owner_permission_witness :
    hasPermission demoProject demoProject.owner Role.admin = true ∧
    hasPermission demoProject 3 Role.viewer = false :=
  ⟨(c10_owner_permission demoProject 3 Role.admin).1,
   (c10_owner_permission demoProject 3 Role.viewer).2 (by decide) (by decide)⟩

/-- Helper: default count of a cons. -/
theorem countDefaults_cons (x : BranchRec) (xs : List BranchRec) :
    countDefaults (x :: xs) = (if x.isDefault then 1 else 0) + countDefaults xs := by
  by_cases hx : x.isDefault <;>
    simp [countDefaults, List.filter_cons, hx, Nat.add_comm]

/-- Helper: replacing the records of one id by a record with the same default
flag keeps the default count. -/
theorem countDefaults_replace {bs : List BranchRec} {k : Nat} {r : BranchRec}
    (h : ∀ b ∈ bs, b.bid = k → b.isDefault = r.isDefault) :
    countDefaults (bs.map (fun b => if b.bid = k then r else b)) = countDefaults bs := by
  induction bs with
  | nil => rfl
  | cons x xs ih =>
      have ih' := ih fun b hb hk => h b (List.mem_cons_of_mem x hb) hk
      rw [List.map_cons, countDefaults_cons, countDefaults_cons, ih']
      by_cases hx : x.bid = k
      · rw [if_pos hx, h x (List.mem_cons_self x xs) hx]
      · rw [if_neg hx]

/-- Helper: deleting the records of one id, none of which is flagged default,
keeps the default count. -/
theorem countDefaults_erase {bs : List BranchRec} {k : Nat}
    (h : ∀ x ∈ bs, x.bid = k → x.isDefault = false) :
    countDefaults (bs.filter (fun x => !(x.bid == k))) = countDefaults bs := by
  induction bs with
  | nil => rfl
  | cons x xs ih =>
      have ih' := ih fun b hb hk => h b (List.mem_cons_of_mem x hb) hk
      rw [List.filter_cons]
      by_cases hx : x.bid = k
      · have hdef := h x (List.mem_cons_self x xs) hx
        simp [hx, countDefaults_cons, ih', hdef]
      · simp [hx, countDefaults_cons, ih']

/-- Helper: saving a document whose id is fresh, with the default flag not
modified, appends it. -/
theorem saveBranch_fresh {bs : List BranchRec} {r : BranchRec}
    (hfresh : ∀ b ∈ bs, b.bid ≠ r.bid) :
    saveBranch bs r false = bs ++ [r] := by
  have hany : ¬(bs.any (fun b => b.bid == r.bid) = true) := by
    rw [List.any_eq_true]
    rintro ⟨b, hb, hbid⟩
    exact hfresh b hb (by simpa using hbid)
  simp [saveBranch, hany]

/-- Helper: saving a document whose id is present, with the default flag not
modified, replaces it in place. -/
theorem saveBranch_existing (bs : List BranchRec) (r : BranchRec)
    (hmem : ∃ b ∈ bs, b.bid = r.bid) :
    saveBranch bs r false = bs.map (fun b => if b.bid = r.bid then r else b) := by
  have hany : bs.any (fun b => b.bid == r.bid) = true := by
    rw [List.any_eq_true]
    rcases hmem with ⟨b, hb, hbid⟩
    exact ⟨b, hb, by simpa using hbid⟩
  simp [saveBranch, hany]

/-- Helper: each branch operation preserves the branch invariant. -/
theorem binv_applyBOp (st : BSt) (op : BOp) (h : BInv st) : BInv (applyBOp st op) := by
  obtain ⟨hcount, hnodup, hbound⟩ := h
  cases op with
  | create name source =>
      show BInv (createBranch st name source)
      rw [createBranch]
      by_cases h1 : st.branches.any (fun b => b.name == name)
      · rw [if_pos h1]; exact ⟨hcount, hnodup, hbound⟩
      · rw [if_neg h1]
        by_cases h2 : st.branches.any (fun b => b.name == source)
        · rw [if_neg (by simp [h2])]
          have hfresh : ∀ b ∈ st.branches,
              b.bid ≠ (⟨st.nextBid, name, false, false⟩ : BranchRec).bid :=
            fun b hb => Nat.ne_of_lt (hbound b hb)
          rw [saveBranch_fresh hfresh]
          refine ⟨?_, ?_, ?_⟩
          · simpa [countDefaults, List.filter_append] using hcount
          · rw [List.map_append, List.nodup_append]
            refine ⟨hnodup, by simp, ?_⟩
            intro x hx hx'
            rcases List.mem_map.mp hx with ⟨b, hb, hbx⟩
            have hxval : x = st.nextBid := by simpa using hx'
            have hlt : b.bid < st.nextBid := hbound b hb
            have heq : b.bid = st.nextBid := hbx.trans hxval
            omega
          · intro b hb
            rcases List.mem_append.mp hb with hb | hb
            · exact Nat.lt_succ_of_lt (hbound b hb)
            · simp only [List.mem_singleton] at hb
              rw [hb]
              exact Nat.lt_succ_self _
        · rw [if_pos (by simp [h2])]
          exact ⟨hcount, hnodup, hbound⟩
  | patch name prot =>
      show BInv (patchBranch st name prot)
      cases hfind : st.branches.find? (fun b => b.name == name) with
      | none => simp only [patchBranch, hfind]; exact ⟨hcount, hnodup, hbound⟩
      | some b =>
          have hbmem : b ∈ st.branches := List.mem_of_find?_eq_some hfind
          have hsame : ∀ x ∈ st.branches, x.bid = b.bid → x = b :=
            fun x hx hxb => List.inj_on_of_nodup_map hnodup hx hbmem hxb
          simp only [patchBranch, hfind]
          rw [saveBranch_existing st.branches { b with isProtected := prot } ⟨b, hbmem, rfl⟩]
          have hbids : ∀ x ∈ st.branches,
              ((fun y => if y.bid = b.bid then { b with isProtected := prot } else y) x).bid
                = x.bid := by
            intro x hx
            by_cases hxb : x.bid = b.bid
            · simp [hxb]
            · simp [hxb]
          refine ⟨?_, ?_, ?_⟩
          · exact (countDefaults_replace fun x hx hxb => by rw [hsame x hx hxb]).trans hcount
          · have : (st.branches.map
                (fun y => if y.bid = b.bid then { b with isProtected := prot } else y)).map
                  (fun y => y.bid) = st.branches.map (fun y => y.bid) := by
              rw [List.map_map]
              exact List.map_congr_left hbids
            rw [this]
            exact hnodup
          · intro x hx
            rcases List.mem_map.mp hx with ⟨y, hy, hyx⟩
            have hyx' : (if y.bid = b.bid then { b with isProtected := prot } else y) = x := hyx
            have hxy : x.bid = y.bid := by
              by_cases hyb : y.bid = b.bid
              · rw [if_pos hyb] at hyx'
                rw [← hyx', hyb]
              · rw [if_neg hyb] at hyx'
                rw [← hyx']
            rw [hxy]
            exact hbound y hy
  | del name =>
      show BInv (deleteBranch st name)
      cases hfind : st.branches.find? (fun b => b.name == name) with
      | none => simp only [deleteBranch, hfind]; exact ⟨hcount, hnodup, hbound⟩
      | some b =>
          simp only [deleteBranch, hfind]
          by_cases hguard : (b.isDefault || b.isProtected) = true
          · rw [if_pos hguard]; exact ⟨hcount, hnodup, hbound⟩
          · rw [if_neg hguard]
            have hbmem : b ∈ st.branches := List.mem_of_find?_eq_some hfind
            have hdef : b.isDefault = false := by
              rcases Bool.or_eq_false_iff.mp (Bool.not_eq_true _ |>.mp hguard) with ⟨h1, _⟩
              exact h1
            have hsame : ∀ x ∈ st.branches, x.bid = b.bid → x = b :=
              fun x hx hxb => List.inj_on_of_nodup_map hnodup hx hbmem hxb
            refine ⟨?_, ?_, ?_⟩
            · exact (countDefaults_erase fun x hx hxb => by
                rw [hsame x hx hxb]; exact hdef).trans hcount
            · exact List.Nodup.sublist ((List.filter_sublist _).map _) hnodup
            · intro x hx
              exact hbound x (List.mem_of_mem_filter hx)

/-- Helper: running any operation sequence preserves the branch invariant. -/
theorem binv_runBOps (ops : List BOp) (st : BSt) (h : BInv st) : BInv (runBOps st ops) := by
  induction ops generalizing st with
  | nil => exact h
  | cons op ops ih => exact ih _ (binv_applyBOp st op h)

/-- C2: starting from project creation, any sequence of branch operations leaves
exactly one branch of the project with the default flag set, and saving a
branch whose default flag is newly set to true clears the flag on every other
branch of the project. -/
theorem c2_unique_default :
    (∀ ops : List BOp, countDefaults (runBOps createMainState ops).branches = 1) ∧
    (∀ (bs : List BranchRec) (r : BranchRec), r.isDefault = true →
      ∀ b ∈ saveBranch bs r true, b.bid ≠ r.bid → b.isDefault = false) := by
  constructor
  · intro ops
    exact (binv_runBOps ops createMainState ⟨by decide, by decide, by decide⟩).1
  · intro bs r hr b hb hbid
    rw [saveBranch] at hb
    rw [if_pos (show (r.isDefault && true) = true by simp [hr])] at hb
    have hmem1 : ∀ x, x ∈ bs.map (fun y =>
        if y.bid = r.bid then y else { y with isDefault := false }) →
        x.bid ≠ r.bid → x.isDefault = false := by
      intro x hx hxbid
      rcases List.mem_map.mp hx with ⟨y, hy, hyx⟩
      have hyx' : (if y.bid = r.bid then y else { y with isDefault := false }) = x := hyx
      by_cases hyb : y.bid = r.bid
      · rw [if_pos hyb] at hyx'
        subst hyx'
        exact absurd hyb hxbid
      · rw [if_neg hyb] at hyx'
        rw [← hyx']
    split at hb
    · rcases List.mem_map.mp hb with ⟨y, hy, hyx⟩
      have hyx' : (if y.bid = r.bid then r else y) = b := hyx
      by_cases hyr : y.bid = r.bid
      · rw [if_pos hyr] at hyx'
        subst hyx'
        exact absurd rfl hbid
      · rw [if_neg hyr] at hyx'
        subst hyx'
        exact hmem1 y hy hyr
    · rcases List.mem_append.mp hb with hb | hb
      · exact hmem1 b hb hbid
      · have hbr : b = r := by simpa using hb
        subst hbr
        exact absurd rfl hbid

/-- C2 witness: the run of a concrete operation sequence keeps one default
branch, and the sibling of a concrete newly defaulted branch loses its flag. -/
theorem c2_unique_default_witness :
    countDefaults (runBOps createMainState
      [BOp.create "dev" "main", BOp.patch "dev" true, BOp.del "dev"]).branches = 1 ∧
    (⟨0, "main", false, true⟩ : BranchRec).isDefault = false :=
  ⟨c2_unique_default.1 _,
   c2_unique_default.2 [⟨0, "main", true, true⟩] ⟨1, "dev", true, false⟩ rfl
     ⟨0, "main", false, true⟩ (by decide) (by decide)⟩

/-- Helper: the content route on a miss appends a fresh file and its commit. -/
theorem put_none {st : St} {b fp c h : String}
    (hf : st.files.find? (matchesLive b (parsePath fp).1 (parsePath fp).2) = none) :
    put st b fp c h =
      { files := st.files ++
          [{ fid := st.nextId, branch := b, path := (parsePath fp).1
             name := (parsePath fp).2, content := c, ftype := FType.file
             isDeleted := false, lastCommit := some (st.nextId + 1) }]
        commits := st.commits ++
          [mkCommit (st.nextId + 1) h b
            [⟨Action.added, fullPath (parsePath fp).1 (parsePath fp).2, countLines c, 0⟩]]
        nextId := st.nextId + 2 } := by
  simp only [put, hf]
  rfl

/-- Helper: the content route on a hit rewrites the file in place, pointing it
at the appended modified commit. -/
theorem put_some {st : St} {b fp c h : String} {f : FileRec}
    (hf : st.files.find? (matchesLive b (parsePath fp).1 (parsePath fp).2) = some f) :
    put st b fp c h =
      { files := st.files.map (fun g =>
          if g.fid = f.fid then { g with content := c, lastCommit := some st.nextId } else g)
        commits := st.commits ++
          [mkCommit st.nextId h b
            [⟨Action.modified, fullPath f.path f.name, 0, countLines f.content⟩]]
        nextId := st.nextId + 1 } := by
  simp only [put, hf]
  rfl

/-- Helper: the delete route on a hit soft deletes the file in place and
appends the deleted commit. -/
theorem remove_some {st : St} {b fp h : String} {f : FileRec}
    (hf : st.files.find? (matchesLive b (parsePath fp).1 (parsePath fp).2) = some f) :
    remove st b fp h = some
      { files := st.files.map (fun g =>
          if g.fid = f.fid then { g with isDeleted := true } else g)
        commits := st.commits ++
          [mkCommit st.nextId h b
            [⟨Action.deleted, fullPath f.path f.name, 0, countLines f.content⟩]]
        nextId := st.nextId + 1 } := by
  simp only [remove, hf]

/-- C6 amended: a change recorded by the content routes carries linesAdded
equal to the new line count only for an added file and 0 for modified and
deleted files, linesDeleted equal to the old line count for modified and
deleted files and 0 for added ones, and the aggregate stats of every commit
are the number of changes and the sums of the per change line counts. -/
theorem c6_change_stats (st : St) (b fp c h : String) :
    (st.files.find? (matchesLive b (parsePath fp).1 (parsePath fp).2) = none →
      (put st b fp c h).commits = st.commits ++
        [mkCommit (st.nextId + 1) h b
          [⟨Action.added, fullPath (parsePath fp).1 (parsePath fp).2, countLines c, 0⟩]]) ∧
    (∀ f, st.files.find? (matchesLive b (parsePath fp).1 (parsePath fp).2) = some f →
      (put st b fp c h).commits = st.commits ++
        [mkCommit st.nextId h b
          [⟨Action.modified, fullPath f.path f.name, 0, countLines f.content⟩]]) ∧
    (∀ f st', st.files.find? (matchesLive b (parsePath fp).1 (parsePath fp).2) = some f →
      remove st b fp h = some st' →
      st'.commits = st.commits ++
        [mkCommit st.nextId h b
          [⟨Action.deleted, fullPath f.path f.name, 0, countLines f.content⟩]]) ∧
    (∀ cid hh bb chs, (mkCommit cid hh bb chs).stats.filesChanged = chs.length ∧
      (mkCommit cid hh bb chs).stats.totalLinesAdded =
        (chs.map (fun ch => ch.linesAdded)).sum ∧
      (mkCommit cid hh bb chs).stats.totalLinesDeleted =
        (chs.map (fun ch => ch.linesDeleted)).sum) := by
  refine ⟨?_, ?_, ?_, ?_⟩
  · intro hf
    rw [put_none hf]
  · intro f hf
    rw [put_some hf]
  · intro f st' hf hrem
    rw [remove_some hf] at hrem
    cases hrem
    rfl
  · intro cid hh bb chs
    exact ⟨rfl, rfl, rfl⟩

/-- C6 witness: the amended statement applied to a fresh file on the empty
store. -/
theorem c6_change_stats_witness :
    (put emptySt "main" "a.txt" "x\ny" "abcdef1").commits =
      emptySt.commits ++ [mkCommit (emptySt.nextId + 1) "abcdef1" "main"
        [⟨Action.added, fullPath (parsePath "a.txt").1 (parsePath "a.txt").2,
          countLines "x\ny", 0⟩]] :=
  (c6_change_stats emptySt "main" "a.txt" "x\ny" "abcdef1").1 rfl

/-- Helper: mapping an update over the file list that never changes the branch
field and only touches records of one id, none of which belongs to the watched
branch, leaves that branch file list unchanged. -/
theorem filter_branch_map_update (v : String) (φ : FileRec → FileRec) (k : Nat)
    (hbranch : ∀ g, (φ g).branch = g.branch)
    (hid : ∀ g, g.fid ≠ k → φ g = g) :
    ∀ fs : List FileRec, (∀ g ∈ fs, g.fid = k → (g.branch == v) = false) →
      (fs.map φ).filter (fun g => g.branch == v) =
        fs.filter (fun g => g.branch == v) := by
  intro fs
  induction fs with
  | nil => intro _; rfl
  | cons a l ih =>
      intro hmem
      rw [List.map_cons, List.filter_cons, List.filter_cons]
      have hab : ((φ a).branch == v) = (a.branch == v) := by rw [hbranch]
      rw [hab]
      by_cases hav : (a.branch == v) = true
      · rw [if_pos hav, if_pos hav]
        have hak : a.fid ≠ k := fun hk => by
          rw [hmem a (List.mem_cons_self a l) hk] at hav
          cases hav
        rw [hid a hak, ih fun g hg => hmem g (List.mem_cons_of_mem a hg)]
      · rw [if_neg hav, if_neg hav, ih fun g hg => hmem g (List.mem_cons_of_mem a hg)]

/-- Helper: a write to one branch leaves the files of every other branch
unchanged. -/
theorem put_branchFiles (st : St) (hWF : WF st) (u v fp c h : String) (huv : v ≠ u) :
    branchFiles (put st u fp c h).files v = branchFiles st.files v := by
  obtain ⟨hbound, hnodup⟩ := hWF
  rcases hfind : st.files.find? (matchesLive u (parsePath fp).1 (parsePath fp).2)
    with _ | f
  · rw [put_none hfind]
    show List.filter _ (st.files ++ [_]) = _
    rw [List.filter_append]
    have hne : ((u : String) == v) = false := beq_eq_false_iff_ne.mpr fun hh => huv hh.symm
    simp [List.filter_cons, hne, branchFiles]
  · have hfm := List.find?_some hfind
    have hfmem := List.mem_of_find?_eq_some hfind
    simp only [matchesLive, Bool.and_eq_true, beq_iff_eq] at hfm
    have hfb : f.branch = u := hfm.1.1.1
    rw [put_some hfind]
    show List.filter _ (st.files.map _) = _
    exact filter_branch_map_update v _ f.fid
      (fun g => by by_cases hg : g.fid = f.fid <;> simp [hg])
      (fun g hg => by simp [hg]) st.files
      (fun g hg hk => by
        have hgf : g = f := List.inj_on_of_nodup_map hnodup hg hfmem hk
        subst hgf
        exact beq_eq_false_iff_ne.mpr fun hh => huv (by rw [← hh, hfb]))

/-- Helper: a delete on one branch leaves the files of every other branch
unchanged. -/
theorem remove_branchFiles (st : St) (hWF : WF st) (u v fp h : String) (st' : St)
    (huv : v ≠ u) (hrem : remove st u fp h = some st') :
    branchFiles st'.files v = branchFiles st.files v := by
  obtain ⟨hbound, hnodup⟩ := hWF
  rcases hfind : st.files.find? (matchesLive u (parsePath fp).1 (parsePath fp).2)
    with _ | f
  · rw [remove] at hrem
    rw [hfind] at hrem
    cases hrem
  · have hfm := List.find?_some hfind
    have hfmem := List.mem_of_find?_eq_some hfind
    simp only [matchesLive, Bool.and_eq_true, beq_iff_eq] at hfm
    have hfb : f.branch = u := hfm.1.1.1
    rw [remove_some hfind] at hrem
    cases hrem
    show List.filter _ (st.files.map _) = _
    exact filter_branch_map_update v _ f.fid
      (fun g => by by_cases hg : g.fid = f.fid <;> simp [hg])
      (fun g hg => by simp [hg]) st.files
      (fun g hg hk => by
        have hgf : g = f := List.inj_on_of_nodup_map hnodup hg hfmem hk
        subst hgf
        exact beq_eq_false_iff_ne.mpr fun hh => huv (by rw [← hh, hfb]))

/-- Helper: every source file is copied with the same path, name, content and
type, a cleared lastCommit and a live tombstone flag. -/
theorem copyFiles_fields (bn : String) :
    ∀ (l : List FileRec) (i : Nat), ∀ f ∈ l,
      ∃ g ∈ copyFiles l bn i, g.branch = bn ∧ g.path = f.path ∧ g.name = f.name ∧
        g.content = f.content ∧ g.ftype = f.ftype ∧ g.lastCommit = none ∧
        g.isDeleted = false := by
  intro l
  induction l with
  | nil => intro i f hf; cases hf
  | cons a l ih =>
      intro i f hf
      rcases List.mem_cons.mp hf with rfl | hf
      · exact ⟨_, List.mem_cons_self _ _, rfl, rfl, rfl, rfl, rfl, rfl, rfl⟩
      · rcases ih (i + 1) f hf with ⟨g, hg, hp⟩
        exact ⟨g, List.mem_cons_of_mem _ hg, hp⟩

/-- Helper: the ids of the copies are the consecutive range starting at the
counter. -/
theorem copyFiles_map_fid (bn : String) :
    ∀ (l : List FileRec) (i : Nat),
      (copyFiles l bn i).map (fun f => f.fid) = List.range' i l.length := by
  intro l
  induction l with
  | nil => intro i; rfl
  | cons a l ih =>
      intro i
      show i :: (copyFiles l bn (i + 1)).map (fun f => f.fid) = List.range' i (l.length + 1)
      rw [ih (i + 1)]
      rfl

/-- Helper: forking preserves well formedness of the store. -/
theorem fork_WF {st : St} (hWF : WF st) (nn sn : String) : WF (fork st nn sn) := by
  obtain ⟨hbound, hnodup⟩ := hWF
  constructor
  · intro f hf
    rcases List.mem_append.mp hf with hf | hf
    · exact Nat.lt_of_lt_of_le (hbound f hf) (Nat.le_add_right _ _)
    · have hfid : f.fid ∈ (copyFiles (st.files.filter
          (fun f => f.branch == sn && !f.isDeleted)) nn st.nextId).map (fun f => f.fid) :=
        List.mem_map.mpr ⟨f, hf, rfl⟩
      rw [copyFiles_map_fid] at hfid
      exact (List.mem_range'_1.mp hfid).2
  · show ((st.files ++ copyFiles _ nn st.nextId).map (fun f => f.fid)).Nodup
    rw [List.map_append, copyFiles_map_fid, List.nodup_append]
    refine ⟨hnodup, List.nodup_range' _ _, ?_⟩
    intro x hx hx'
    rcases List.mem_map.mp hx with ⟨g, hg, hgx⟩
    have h1 : x < st.nextId := hgx ▸ hbound g hg
    have h2 : st.nextId ≤ x := (List.mem_range'_1.mp hx').1
    omega

/-- C1: forking copies, at fork time, every live file of the source branch onto
the new branch with the same path, name and content, as a fresh record whose
lastCommit is cleared, and the copy is point in time: a later write or delete
on any branch leaves the files of every other branch unchanged, in particular
writes to either of the two branches never propagate to the other. -/
theorem c1_fork_point_in_time (st : St) (hWF : WF st) (newName src : String) :
    (∀ f ∈ st.files, f.branch = src → f.isDeleted = false →
      ∃ g ∈ (fork st newName src).files, g.branch = newName ∧ g.path = f.path ∧
        g.name = f.name ∧ g.content = f.content ∧ g.lastCommit = none ∧
        g.isDeleted = false ∧ ∀ f0 ∈ st.files, f0.fid ≠ g.fid) ∧
    (∀ u v fp c h, v ≠ u →
      branchFiles (put (fork st newName src) u fp c h).files v =
        branchFiles (fork st newName src).files v) ∧
    (∀ u v fp h st', v ≠ u → remove (fork st newName src) u fp h = some st' →
      branchFiles st'.files v = branchFiles (fork st newName src).files v) := by
  refine ⟨?_, ?_, ?_⟩
  · intro f hf hfb hfd
    have hfsrc : f ∈ st.files.filter (fun f => f.branch == src && !f.isDeleted) :=
      List.mem_filter.mpr ⟨hf, by simp [hfb, hfd]⟩
    rcases copyFiles_fields newName _ st.nextId f hfsrc with ⟨g, hg, hgb, hgp, hgn, hgc, _, hglc, hgd⟩
    refine ⟨g, List.mem_append_right _ hg, hgb, hgp, hgn, hgc, hglc, hgd, ?_⟩
    intro f0 hf0
    have hgid : g.fid ∈ (copyFiles (st.files.filter
        (fun f => f.branch == src && !f.isDeleted)) newName st.nextId).map (fun f => f.fid) :=
      List.mem_map.mpr ⟨g, hg, rfl⟩
    rw [copyFiles_map_fid] at hgid
    have h2 : st.nextId ≤ g.fid := (List.mem_range'_1.mp hgid).1
    have h1 : f0.fid < st.nextId := hWF.1 f0 hf0
    omega
  · intro u v fp c h huv
    exact put_branchFiles (fork st newName src) (fork_WF hWF newName src) u v fp c h huv
  · intro u v fp h st' huv hrem
    exact remove_branchFiles (fork st newName src) (fork_WF hWF newName src) u v fp h st' huv hrem

/-- Helper: membership in the insertion step of the tree sort. -/
theorem mem_insertLE {x y : FileRec} {l : List FileRec} :
    y ∈ insertLE x l ↔ y = x ∨ y ∈ l := by
  induction l with
  | nil => simp [insertLE]
  | cons a l ih =>
      rw [insertLE]
      by_cases h : treeLE x a
      · simp [h]
      · rw [if_neg h, List.mem_cons, ih, List.mem_cons]
        tauto

/-- Helper: the tree sort reorders without adding or dropping entries. -/
theorem mem_sortTree {y : FileRec} {l : List FileRec} : y ∈ sortTree l ↔ y ∈ l := by
  induction l with
  | nil => simp [sortTree]
  | cons a l ih => simp [sortTree, mem_insertLE, ih]

/-- C1 witness: the fork theorem applied to the concrete one file store. -/
theorem c1_fork_point_in_time_witness :
    (∃ g ∈ (fork c6Start "dev" "main").files, g.branch = "dev" ∧ g.path = "/" ∧
      g.name = "notes.txt" ∧ g.content = "x" ∧ g.lastCommit = none ∧
      g.isDeleted = false ∧ ∀ f0 ∈ c6Start.files, f0.fid ≠ g.fid) ∧
    branchFiles (put (fork c6Start "dev" "main") "dev" "notes.txt" "y" "2222222").files
        "main" = branchFiles (fork c6Start "dev" "main").files "main" :=
  ⟨(c1_fork_point_in_time c6Start ⟨by decide, by decide⟩ "dev" "main").1
      ⟨0, "main", "/", "notes.txt", "x", FType.file, false, none⟩ (by decide) rfl rfl,
   (c1_fork_point_in_time c6Start ⟨by decide, by decide⟩ "dev" "main").2.1
      "dev" "main" "notes.txt" "y" "2222222" (by decide)⟩

/-- Helper: a map that is the identity on every member is the identity. -/
theorem map_id_of_eq {α : Type _} {l : List α} {f : α → α} (h : ∀ a ∈ l, f a = a) :
    l.map f = l := by
  induction l with
  | nil => rfl
  | cons a t ih =>
      rw [List.map_cons, h a (List.mem_cons_self a t),
        ih fun x hx => h x (List.mem_cons_of_mem a hx)]

/-- C5: on a branch with no live file and no commit history at the given path,
writing a content makes the read return it; after a write, an overwrite and a
delete, the tree no longer lists the name, the content lookup fails, and the
history of the branch at that full path holds exactly three commits whose
actions are added, modified and deleted in chronological order. -/
theorem c5_round_trip (st : St) (b fp cA cB h1 h2 h3 : String)
    (hWF : WF st)
    (hNoLive : ∀ f ∈ st.files, matchesLive b (parsePath fp).1 (parsePath fp).2 f = false)
    (hNoCommit : ∀ cm ∈ st.commits, cm.branch = b →
      ∀ ch ∈ cm.changes, ch.filePath ≠ fullPath (parsePath fp).1 (parsePath fp).2) :
    ((getContent (put st b fp cA h1) b fp).map (fun f => f.content) = some cA) ∧
    (∃ st3, remove (put (put st b fp cA h1) b fp cB h2) b fp h3 = some st3 ∧
      (∀ f ∈ getTree st3 b (parsePath fp).1, f.name ≠ (parsePath fp).2) ∧
      getContent st3 b fp = none ∧
      historyFor st3 b (fullPath (parsePath fp).1 (parsePath fp).2) =
        [mkCommit (st.nextId + 1) h1 b
          [⟨Action.added, fullPath (parsePath fp).1 (parsePath fp).2, countLines cA, 0⟩],
         mkCommit (st.nextId + 2) h2 b
          [⟨Action.modified, fullPath (parsePath fp).1 (parsePath fp).2, 0, countLines cA⟩],
         mkCommit (st.nextId + 3) h3 b
          [⟨Action.deleted, fullPath (parsePath fp).1 (parsePath fp).2, 0, countLines cB⟩]]) := by
  obtain ⟨hbound, hnodup⟩ := hWF
  have hfind1 : st.files.find? (matchesLive b (parsePath fp).1 (parsePath fp).2) = none := by
    rw [List.find?_eq_none]
    intro f hf
    rw [hNoLive f hf]
    exact Bool.false_ne_true
  have e1 : put st b fp cA h1 = _ := put_none hfind1
  constructor
  · rw [e1]
    simp only [getContent]
    rw [find?_append_none (fun f hf => by rw [hNoLive f hf]; rfl)]
    rw [List.find?_cons_of_pos _ (by simp [matchesLive])]
    rfl
  · have hfind2 : (put st b fp cA h1).files.find?
        (matchesLive b (parsePath fp).1 (parsePath fp).2) = some
          { fid := st.nextId, branch := b, path := (parsePath fp).1
            name := (parsePath fp).2, content := cA, ftype := FType.file
            isDeleted := false, lastCommit := some (st.nextId + 1) } := by
      rw [e1]
      show (st.files ++ [_]).find? _ = _
      rw [find?_append_none hNoLive]
      exact List.find?_cons_of_pos _ (by simp [matchesLive])
    have e2 : put (put st b fp cA h1) b fp cB h2 =
        { files := st.files ++
            [{ fid := st.nextId, branch := b, path := (parsePath fp).1
               name := (parsePath fp).2, content := cB, ftype := FType.file
               isDeleted := false, lastCommit := some (st.nextId + 2) }]
          commits := st.commits ++
            [mkCommit (st.nextId + 1) h1 b
              [⟨Action.added, fullPath (parsePath fp).1 (parsePath fp).2, countLines cA, 0⟩],
             mkCommit (st.nextId + 2) h2 b
              [⟨Action.modified, fullPath (parsePath fp).1 (parsePath fp).2, 0, countLines cA⟩]]
          nextId := st.nextId + 3 } := by
      rw [put_some hfind2, e1]
      congr 1
      · show (st.files ++ [_]).map _ = _
        rw [List.map_append,
          map_id_of_eq fun g hg => if_neg (Nat.ne_of_lt (hbound g hg))]
        rw [List.map_cons, List.map_nil, if_pos rfl]
      · rw [List.append_assoc]
        rfl
    have hfind3 : (put (put st b fp cA h1) b fp cB h2).files.find?
        (matchesLive b (parsePath fp).1 (parsePath fp).2) = some
          { fid := st.nextId, branch := b, path := (parsePath fp).1
            name := (parsePath fp).2, content := cB, ftype := FType.file
            isDeleted := false, lastCommit := some (st.nextId + 2) } := by
      rw [e2]
      show (st.files ++ [_]).find? _ = _
      rw [find?_append_none hNoLive]
      exact List.find?_cons_of_pos _ (by simp [matchesLive])
    have e3 : remove (put (put st b fp cA h1) b fp cB h2) b fp h3 = some
        { files := st.files ++
            [{ fid := st.nextId, branch := b, path := (parsePath fp).1
               name := (parsePath fp).2, content := cB, ftype := FType.file
               isDeleted := true, lastCommit := some (st.nextId + 2) }]
          commits := st.commits ++
            [mkCommit (st.nextId + 1) h1 b
              [⟨Action.added, fullPath (parsePath fp).1 (parsePath fp).2, countLines cA, 0⟩],
             mkCommit (st.nextId + 2) h2 b
              [⟨Action.modified, fullPath (parsePath fp).1 (parsePath fp).2, 0, countLines cA⟩],
             mkCommit (st.nextId + 3) h3 b
              [⟨Action.deleted, fullPath (parsePath fp).1 (parsePath fp).2, 0, countLines cB⟩]]
          nextId := st.nextId + 4 } := by
      rw [remove_some hfind3, e2]
      refine congrArg some ?_
      congr 1
      · show (st.files ++ [_]).map _ = _
        rw [List.map_append,
          map_id_of_eq fun g hg => if_neg (Nat.ne_of_lt (hbound g hg))]
        rw [List.map_cons, List.map_nil, if_pos rfl]
      · rw [List.append_assoc]
        rfl
    refine ⟨_, e3, ?_, ?_, ?_⟩
    · intro f hf
      have hf' := mem_sortTree.mp hf
      rcases List.mem_filter.mp hf' with ⟨hfmem, hfprop⟩
      simp only [Bool.and_eq_true, beq_iff_eq, Bool.not_eq_true'] at hfprop
      rcases List.mem_append.mp hfmem with holdm | hnew
      · intro hname
        have hml : matchesLive b (parsePath fp).1 (parsePath fp).2 f = true := by
          simp [matchesLive, hfprop.1.1, hfprop.1.2, hfprop.2, hname]
        rw [hNoLive f holdm] at hml
        cases hml
      · have hfeq : f =
            { fid := st.nextId, branch := b, path := (parsePath fp).1
              name := (parsePath fp).2, content := cB, ftype := FType.file
              isDeleted := true, lastCommit := some (st.nextId + 2) } := by
          simpa using hnew
        rw [hfeq] at hfprop
        exact absurd hfprop.2 (by simp)
    · simp only [getContent]
      rw [List.find?_eq_none]
      intro f hfmem hpc
      rcases List.mem_append.mp hfmem with holdm | hnew
      · rw [Bool.and_eq_true] at hpc
        have hml := hpc.1
        rw [hNoLive f holdm] at hml
        cases hml
      · have hfeq : f =
            { fid := st.nextId, branch := b, path := (parsePath fp).1
              name := (parsePath fp).2, content := cB, ftype := FType.file
              isDeleted := true, lastCommit := some (st.nextId + 2) } := by
          simpa using hnew
        rw [hfeq] at hpc
        rw [Bool.and_eq_true] at hpc
        have hml := hpc.1
        simp [matchesLive] at hml
    · show List.filter _ (st.commits ++ [_, _, _]) = _
      rw [List.filter_append]
      have holdc : st.commits.filter (fun c => c.branch == b &&
          c.changes.any (fun ch =>
            ch.filePath == fullPath (parsePath fp).1 (parsePath fp).2)) = [] := by
        rw [List.filter_eq_nil_iff]
        intro cm hcm hp
        rw [Bool.and_eq_true] at hp
        rcases hp with ⟨hpb, hpa⟩
        rcases List.any_eq_true.mp hpa with ⟨ch, hch, hcheq⟩
        exact hNoCommit cm hcm (by simpa using hpb) ch hch (by simpa using hcheq)
      rw [holdc, List.nil_append]
      simp [mkCommit]

/-- C5 witness: the round trip theorem applied to a concrete path on the empty
store. -/
theorem c5_round_trip_witness :
    ((getContent (put emptySt "main" "docs/guide.md" "A" "1111111") "main"
      "docs/guide.md").map (fun f => f.content) = some "A") ∧
    (∃ st3, remove (put (put emptySt "main" "docs/guide.md" "A" "1111111") "main"
        "docs/guide.md" "B" "2222222") "main" "docs/guide.md" "3333333" = some st3 ∧
      (∀ f ∈ getTree st3 "main" (parsePath "docs/guide.md").1,
        f.name ≠ (parsePath "docs/guide.md").2) ∧
      getContent st3 "main" "docs/guide.md" = none ∧
      historyFor st3 "main" (fullPath (parsePath "docs/guide.md").1
          (parsePath "docs/guide.md").2) =
        [mkCommit 1 "1111111" "main"
          [⟨Action.added, fullPath (parsePath "docs/guide.md").1
              (parsePath "docs/guide.md").2, countLines "A", 0⟩],
         mkCommit 2 "2222222" "main"
          [⟨Action.modified, fullPath (parsePath "docs/guide.md").1
              (parsePath "docs/guide.md").2, 0, countLines "A"⟩],
         mkCommit 3 "3333333" "main"
          [⟨Action.deleted, fullPath (parsePath "docs/guide.md").1
              (parsePath "docs/guide.md").2, 0, countLines "B"⟩]]) :=
  c5_round_trip emptySt "main" "docs/guide.md" "A" "B" "1111111" "2222222" "3333333"
    ⟨by decide, by decide⟩ (by decide) (by decide)

end Minihub
